import Mathlib

/-!
Shallow embedding of the libmpc problem-assembly core
(`Mapping.hpp`, `ProblemBuilder.hpp`, `NLOptimizer.hpp`, `LMPC.hpp`),
with theorems settling the frozen claims about it.

Conventions of the embedding:
* matrices are total functions `ℕ → ℕ → ℚ` (entries outside the declared
  size are `0`, matching an Eigen matrix that was resized and fully
  written); column vectors are `ℕ → ℚ`;
* `double` arithmetic on finite values is modelled exactly in `ℚ`;
* the IEEE infinities that appear only in the bound vectors are modelled
  by the three-valued type `XVal` below;
* the integer-valued dimension template parameters are `ℕ`.
-/

set_option maxHeartbeats 1000000

namespace Libmpc

/-- Extended value for bound-vector entries: a finite rational or one of
the two IEEE infinities used by the source (`inf`, `-inf`). -/
inductive XVal where
  | val : ℚ → XVal
  | pinf : XVal
  | ninf : XVal
deriving DecidableEq

/-- Subtraction of a finite value from an extended value, the only
arithmetic the source performs on bound entries holding infinities
(`inf - finite = inf`, `-inf - finite = -inf`). -/
def XVal.subQ : XVal → ℚ → XVal
  | XVal.val a, b => XVal.val (a - b)
  | XVal.pinf, _ => XVal.pinf
  | XVal.ninf, _ => XVal.ninf

/-- Dimension descriptor: state, input, measured-disturbance and output
sizes, prediction horizon and control horizon (`Common::dim`). -/
structure Dims where
  nx : ℕ
  nu : ℕ
  ndu : ℕ
  ny : ℕ
  ph : ℕ
  ch : ℕ

/-- Finite sum of the first `n` values of `f`, used to embed the
matrix-vector products of the source. -/
def sumTo (f : ℕ → ℚ) (n : ℕ) : ℚ :=
  ∑ i ∈ Finset.range n, f i

/-! ## Mapping (`Mapping.hpp`)

`computeMapping` builds the replication-count vector `m` and fills
`Iz2uMat` / `Iu2zMat` by a double loop of `nu×nu` block writes; the loop
is embedded literally below. -/

/-- Replication-count vector `m` of `Mapping::computeMapping`: every
entry is set to `1`, then entry `ch - 1` is overwritten with
`ph - ch + 1`.  The source computes `ph - ch + 1` in `double`
arithmetic; for the dimension tuples in scope (`1 ≤ ch ≤ ph`) the value
is the natural number `ph - ch + 1` modelled here. -/
def mVec (ph ch : ℕ) (i : ℕ) : ℕ :=
  if i = ch - 1 then ph - ch + 1 else 1

/-- Scaling matrix `Sz2uMat`: zeroed, then the diagonal is set to the
input scaling (`Sz2uMat(i,i) = input_scaling(i)` for `i < nu`). -/
def Sz2uMat (nu : ℕ) (s : ℕ → ℚ) : ℕ → ℕ → ℚ :=
  fun r c => if r < nu ∧ r = c then s r else 0

/-- Inverse scaling matrix `Su2zMat`: zeroed, then
`Su2zMat(i,i) = 1.0 / input_scaling(i)` for `i < nu`. -/
def Su2zMat (nu : ℕ) (s : ℕ → ℚ) : ℕ → ℕ → ℚ :=
  fun r c => if r < nu ∧ r = c then 1 / s r else 0

/-- One Eigen `block(jx, ix, nu, nu) = S` write on a matrix. -/
def placeBlock (nu : ℕ) (S : ℕ → ℕ → ℚ) (M : ℕ → ℕ → ℚ) (jx ix : ℕ) :
    ℕ → ℕ → ℚ :=
  fun r c =>
    if jx ≤ r ∧ r < jx + nu ∧ ix ≤ c ∧ c < ix + nu then S (r - jx) (c - ix)
    else M r c

/-- State threaded through `computeMapping`'s filling loop: the two
mapping matrices being built and the running row offset `jx`. -/
structure MapLoopState where
  Iz2u : ℕ → ℕ → ℚ
  Iu2z : ℕ → ℕ → ℚ
  jx : ℕ

/-- Inner loop of `computeMapping` (`for j in 0..m[i]`): writes `cnt`
consecutive `nu×nu` blocks of `Sz2u` into `Iz2u` at column offset `ix`,
advancing the row offset `jx` by `nu` after each write. -/
def innerWrites (nu : ℕ) (Sz2u : ℕ → ℕ → ℚ) (ix : ℕ) :
    ℕ → MapLoopState → MapLoopState
  | 0, st => st
  | cnt + 1, st =>
      innerWrites nu Sz2u ix cnt
        { st with
          Iz2u := placeBlock nu Sz2u st.Iz2u st.jx ix
          jx := st.jx + nu }

/-- Outer loop of `computeMapping` (`for i in 0..ch`): at step `i` the
column offset is `ix = i * nu`; first `Iu2zMat.block(ix, jx) = Su2z` is
written, then the inner loop replicates `Sz2u` into `Iz2u` `m i` times. -/
def mapLoop (nu : ℕ) (mv : ℕ → ℕ) (Sz2u Su2z : ℕ → ℕ → ℚ) :
    ℕ → MapLoopState
  | 0 => { Iz2u := fun _ _ => 0, Iu2z := fun _ _ => 0, jx := 0 }
  | i + 1 =>
      let st := mapLoop nu mv Sz2u Su2z i
      innerWrites nu Sz2u (i * nu) (mv i)
        { st with Iu2z := placeBlock nu Su2z st.Iu2z (i * nu) st.jx }

/-- Matrix `Iz2uMat` as left by `Mapping::computeMapping`. -/
def Iz2uMat (d : Dims) (s : ℕ → ℚ) : ℕ → ℕ → ℚ :=
  (mapLoop d.nu (mVec d.ph d.ch) (Sz2uMat d.nu s) (Su2zMat d.nu s) d.ch).Iz2u

/-- Matrix `Iu2zMat` as left by `Mapping::computeMapping`. -/
def Iu2zMat (d : Dims) (s : ℕ → ℚ) : ℕ → ℕ → ℚ :=
  (mapLoop d.nu (mVec d.ph d.ch) (Sz2uMat d.nu s) (Su2zMat d.nu s) d.ch).Iu2z

/-- Running sum of replication counts: row-block offset (in blocks) at
which column-block `j` of `Iz2u` starts being occupied. -/
def mOffset (ph ch : ℕ) (j : ℕ) : ℕ :=
  ∑ k ∈ Finset.range j, mVec ph ch k

/-! ## `Mapping::unwrapVector` -/

/-- Result triple `(Xmat, Umat, slack)` written by
`Mapping::unwrapVector` through its output parameters. -/
structure Unwrapped where
  Xmat : ℕ → ℕ → ℚ
  Umat : ℕ → ℕ → ℚ
  slack : ℚ

/-- Embedding of `Mapping::unwrapVector`.  The flat decision vector `x`
is laid out as `ph` state blocks of `nx`, then `ch` move blocks of `nu`,
then the slack scalar.  `u_vec` is the move segment, `tmp_mult` the
product `Iz2uMat * u_vec`, `Umv` its column-major reshape transposed to
`ph` rows with the terminal row duplicating row `ph - 1`.  The state
trajectory sets row `0` to `x0` and rows `1..ph` to the state blocks and
then divides every column `j` (all rows) by `1 / state_scaling j`. -/
def unwrapVector (d : Dims) (Iz2u : ℕ → ℕ → ℚ) (state_scaling : ℕ → ℚ)
    (x : ℕ → ℚ) (x0 : ℕ → ℚ) : Unwrapped :=
  let u_vec : ℕ → ℚ := fun j => x (d.ph * d.nx + j)
  let tmp_mult : ℕ → ℚ := fun t => sumTo (fun j => Iz2u t j * u_vec j) (d.nu * d.ch)
  let Umv : ℕ → ℕ → ℚ := fun i j =>
    if i < d.ph then tmp_mult (i * d.nu + j)
    else if i = d.ph then tmp_mult ((d.ph - 1) * d.nu + j)
    else 0
  let Xraw : ℕ → ℕ → ℚ := fun i j =>
    if j < d.nx then
      if i = 0 then x0 j
      else if i < d.ph + 1 then x ((i - 1) * d.nx + j)
      else 0
    else 0
  { Xmat := fun i j => Xraw i j / (1 / state_scaling j)
    Umat := fun i j => if i < d.ph + 1 ∧ j < d.nu then Umv i j else 0
    slack := x (d.ph * d.nx + d.nu * d.ch) }

/-! ## Linear problem builder (`ProblemBuilder.hpp`)

Matrix members of `ProblemBuilder` and the `Problem` bundle are fields
of the `Builder` structure; each method is a function from `Builder` to
`Builder`. -/

/-- State of a `ProblemBuilder` instance: the augmented model, weights,
bounds, the persistent bound workspaces `leq/ueq/lineq/uineq` and the
`Problem` bundle `P, q, A, l, u`. -/
structure Builder where
  ssA : ℕ → ℕ → ℚ
  ssB : ℕ → ℕ → ℚ
  ssC : ℕ → ℕ → ℚ
  ssBv : ℕ → ℕ → ℚ
  ssDv : ℕ → ℕ → ℚ
  wOutput : ℕ → ℕ → ℚ
  wU : ℕ → ℕ → ℚ
  wDeltaU : ℕ → ℕ → ℚ
  minX : ℕ → ℕ → ℚ
  maxX : ℕ → ℕ → ℚ
  minY : ℕ → ℕ → ℚ
  maxY : ℕ → ℕ → ℚ
  minU : ℕ → ℕ → ℚ
  maxU : ℕ → ℕ → ℚ
  leq : ℕ → ℚ
  ueq : ℕ → ℚ
  lineq : ℕ → XVal
  uineq : ℕ → XVal
  P : ℕ → ℕ → ℚ
  A : ℕ → ℕ → ℚ
  q : ℕ → ℚ
  l : ℕ → XVal
  u : ℕ → XVal

/-- Number of equality rows `(ph + 1) * (nx + nu)`, the offset at which
the inequality section starts in `A`, `l` and `u`. -/
def eqRows (d : Dims) : ℕ := (d.ph + 1) * (d.nx + d.nu)

/-- Builder state after `ProblemBuilder::onInit`: every matrix and
vector allocated and zeroed. -/
def initBuilder : Builder where
  ssA := fun _ _ => 0
  ssB := fun _ _ => 0
  ssC := fun _ _ => 0
  ssBv := fun _ _ => 0
  ssDv := fun _ _ => 0
  wOutput := fun _ _ => 0
  wU := fun _ _ => 0
  wDeltaU := fun _ _ => 0
  minX := fun _ _ => 0
  maxX := fun _ _ => 0
  minY := fun _ _ => 0
  maxY := fun _ _ => 0
  minU := fun _ _ => 0
  maxU := fun _ _ => 0
  leq := fun _ => 0
  ueq := fun _ => 0
  lineq := fun _ => XVal.val 0
  uineq := fun _ => XVal.val 0
  P := fun _ _ => 0
  A := fun _ _ => 0
  q := fun _ => 0
  l := fun _ => XVal.val 0
  u := fun _ => XVal.val 0

/-- Diagonal of the `(ny+nu)×(ny+nu)` workspace `wExtendedState` for
horizon step `k`: output weights on the first `ny` entries, input
weights on the next `nu` (the off-diagonal entries are zero). -/
def wExt (d : Dims) (wOutput wU : ℕ → ℕ → ℚ) (k a : ℕ) : ℚ :=
  if a < d.ny then wOutput a k else wU (a - d.ny) k

/-- Entry `(r, c)` of the step-`k` objective block
`ssC.transpose() * wExtendedState * ssC`; since `wExtendedState` is
diagonal the double contraction collapses to a single sum. -/
def PStateEntry (d : Dims) (ssC wOutput wU : ℕ → ℕ → ℚ) (k r c : ℕ) : ℚ :=
  sumTo (fun a => ssC a r * wExt d wOutput wU k a * ssC a c) (d.ny + d.nu)

/-- Objective matrix `P` as assembled by `buildTITerms`: zeroed, then
for each step `i ≤ ph` the diagonal `(nx+nu)` block
`ssCᵗ * wExtendedState * ssC`, and for each `i < ph` the diagonal `nu`
block `wDeltaU.col(i).asDiagonal()` in the tail section. -/
def Pfun (d : Dims) (ssC wOutput wU wDeltaU : ℕ → ℕ → ℚ) : ℕ → ℕ → ℚ :=
  fun i j =>
    let m := d.nx + d.nu
    let E := eqRows d
    if i < E ∧ j < E then
      if i / m = j / m then PStateEntry d ssC wOutput wU (i / m) (i % m) (j % m)
      else 0
    else if E ≤ i ∧ i < E + d.ph * d.nu ∧ E ≤ j ∧ j < E + d.ph * d.nu then
      if i = j then wDeltaU ((i - E) % d.nu) ((i - E) / d.nu) else 0
    else 0

/-- Entry of the shifted identities `augId` (size `(ph+1)²`) and
`idenBd` (size `(ph+1)×ph`): both are zero except for the identity
written into `block(1, 0, ph, ph)`. -/
def shiftIdEntry (ph i j : ℕ) : ℚ :=
  if 1 ≤ i ∧ i ≤ ph ∧ j + 1 = i then 1 else 0

/-- Entry `(r, c)` of the equality block `Aeq` of `buildTITerms`:
`kron(predHId, -extSpaceId) + kron(augId, ssA)` on the first
`(ph+1)(nx+nu)` columns and `kron(idenBd, ssB)` on the move columns. -/
def AeqEntry (d : Dims) (ssA ssB : ℕ → ℕ → ℚ) (r c : ℕ) : ℚ :=
  let m := d.nx + d.nu
  let E := eqRows d
  if c < E then
    (if r / m = c / m then -(if r % m = c % m then (1 : ℚ) else 0) else 0)
      + shiftIdEntry d.ph (r / m) (c / m) * ssA (r % m) (c % m)
  else if c < E + d.ph * d.nu then
    shiftIdEntry d.ph (r / m) ((c - E) / d.nu) * ssB (r % m) ((c - E) % d.nu)
  else 0

/-- Entry `(r, c)` of the inequality block `Aineq` of `buildTITerms`
(`r` counted from the top of `Aineq`): an identity over all augmented
state variables, `kron(predHId, ssC.middleRows(0, ny))` for the output
rows, and an identity over the move variables for the rate rows. -/
def AineqEntry (d : Dims) (ssC : ℕ → ℕ → ℚ) (r c : ℕ) : ℚ :=
  let m := d.nx + d.nu
  let E := eqRows d
  if r < E then
    if r = c then 1 else 0
  else if r < E + (d.ph + 1) * d.ny then
    let t := r - E
    if c < E ∧ t / d.ny = c / m then ssC (t % d.ny) (c % m) else 0
  else if r < E + (d.ph + 1) * d.ny + d.ph * d.nu then
    if E ≤ c ∧ r - (E + (d.ph + 1) * d.ny) = c - E then 1 else 0
  else 0

/-- Constraint matrix `A` of the `Problem` bundle: `Aeq` stacked on top
of `Aineq`. -/
def Afun (d : Dims) (ssA ssB ssC : ℕ → ℕ → ℚ) : ℕ → ℕ → ℚ :=
  fun r c =>
    let E := eqRows d
    if r < E then AeqEntry d ssA ssB r c
    else AineqEntry d ssC (r - E) c

/-- Column of `minU`/`maxU` used for horizon step `k` when the box
bounds are stacked: the final step `ph` reuses column `ph - 1`. -/
def tmpUCol (ph k : ℕ) : ℕ := if k = ph then ph - 1 else k

/-- Entry `t` of the stacked state/input box bound `eMinX` (resp.
`eMaxX`): block `k = t / (nx+nu)` holds `minX.col(k)` over the state
rows followed by the step-`k` input bound over the input rows. -/
def eBoxEntry (d : Dims) (mX mU : ℕ → ℕ → ℚ) (t : ℕ) : ℚ :=
  let m := d.nx + d.nu
  if t % m < d.nx then mX (t % m) (t / m)
  else mU (t % m - d.nx) (tmpUCol d.ph (t / m))

/-- Inequality lower bound vector as (re)written by `buildTITerms`:
the stacked box bounds, the column-major flattening of `minY`, and the
rate-constraint rows `(i > ch ? 0 : -inf)`. -/
def lineqTI (d : Dims) (old : ℕ → XVal) (mX mU mY : ℕ → ℕ → ℚ) : ℕ → XVal :=
  fun i =>
    let E := eqRows d
    let Y := (d.ph + 1) * d.ny
    if i < E then XVal.val (eBoxEntry d mX mU i)
    else if i < E + Y then XVal.val (mY ((i - E) % d.ny) ((i - E) / d.ny))
    else if i < E + Y + d.ph * d.nu then
      if (i - (E + Y)) / d.nu > d.ch then XVal.val 0 else XVal.ninf
    else old i

/-- Inequality upper bound vector as (re)written by `buildTITerms`:
like `lineqTI` with the maxima and `(i > ch ? 0 : inf)`. -/
def uineqTI (d : Dims) (old : ℕ → XVal) (mX mU mY : ℕ → ℕ → ℚ) : ℕ → XVal :=
  fun i =>
    let E := eqRows d
    let Y := (d.ph + 1) * d.ny
    if i < E then XVal.val (eBoxEntry d mX mU i)
    else if i < E + Y then XVal.val (mY ((i - E) % d.ny) ((i - E) / d.ny))
    else if i < E + Y + d.ph * d.nu then
      if (i - (E + Y)) / d.nu > d.ch then XVal.val 0 else XVal.pinf
    else old i

/-- Embedding of `ProblemBuilder::buildTITerms`: rebuilds `P`, `A` and
the time-invariant parts of `lineq` / `uineq`. -/
def buildTITerms (d : Dims) (b : Builder) : Builder :=
  { b with
    P := Pfun d b.ssC b.wOutput b.wU b.wDeltaU
    A := Afun d b.ssA b.ssB b.ssC
    lineq := lineqTI d b.lineq b.minX b.minU b.minY
    uineq := uineqTI d b.uineq b.maxX b.maxU b.maxY }

/-- Embedding of `ProblemBuilder::setStateModel`: writes the augmented
blocks of `ssA`, `ssB`, `ssC` and rebuilds the time-invariant terms.
Only the blocks the source writes are replaced; `ssC`'s untouched
blocks keep their previous entries. -/
def setStateModel (d : Dims) (b : Builder) (A B C : ℕ → ℕ → ℚ) : Builder :=
  buildTITerms d
    { b with
      ssA := fun i j =>
        if i < d.nx then
          if j < d.nx then A i j
          else if j < d.nx + d.nu then B i (j - d.nx)
          else 0
        else if i < d.nx + d.nu then
          if j < d.nx then 0
          else if j < d.nx + d.nu then (if i = j then 1 else 0)
          else 0
        else 0
      ssB := fun i j =>
        if j < d.nu then
          if i < d.nx then B i j
          else if i < d.nx + d.nu then (if i - d.nx = j then 1 else 0)
          else 0
        else 0
      ssC := fun i j =>
        if i < d.ny ∧ j < d.nx then C i j
        else if d.ny ≤ i ∧ i < d.ny + d.nu ∧ d.nx ≤ j ∧ j < d.nx + d.nu then
          (if i - d.ny = j - d.nx then 1 else 0)
        else b.ssC i j }

/-- Embedding of `ProblemBuilder::setExogenuosInput`: zero-extends the
disturbance matrices to the augmented sizes and rebuilds. -/
def setExogenuosInput (d : Dims) (b : Builder) (B D : ℕ → ℕ → ℚ) : Builder :=
  buildTITerms d
    { b with
      ssBv := fun i j => if i < d.nx ∧ j < d.ndu then B i j else 0
      ssDv := fun i j => if i < d.ny ∧ j < d.ndu then D i j else 0 }

/-- Embedding of `ProblemBuilder::setObjective`: stores the per-step
weight matrices and rebuilds. -/
def setObjective (d : Dims) (b : Builder) (OW UW DW : ℕ → ℕ → ℚ) : Builder :=
  buildTITerms d { b with wOutput := OW, wU := UW, wDeltaU := DW }

/-- Broadcast of a `ph`-column bound matrix onto `ph + 1` columns with
column `0` duplicated (`minX.block(0,1,·,ph) = M; minX.col(0) = M.col(0)`). -/
def dupCol0 (M : ℕ → ℕ → ℚ) : ℕ → ℕ → ℚ :=
  fun r k => if k = 0 then M r 0 else M r (k - 1)

/-- Embedding of `ProblemBuilder::setConstraints`: stores the bound
matrices (state and output bounds with column `0` duplicated) and
rebuilds. -/
def setConstraints (d : Dims) (b : Builder)
    (XMin UMin YMin XMax UMax YMax : ℕ → ℕ → ℚ) : Builder :=
  buildTITerms d
    { b with
      minX := dupCol0 XMin
      maxX := dupCol0 XMax
      minY := dupCol0 YMin
      maxY := dupCol0 YMax
      minU := UMin
      maxU := UMax }

/-- Extended reference vector `eRef = [yRef; uRef]`. -/
def eRefFun (d : Dims) (yRef uRef : ℕ → ℚ) (a : ℕ) : ℚ :=
  if a < d.ny then yRef a else uRef (a - d.ny)

/-- Row `a` of the disturbance feed-through product `ssDv * uMeas`. -/
def dvProd (d : Dims) (ssDv : ℕ → ℕ → ℚ) (uMeas : ℕ → ℚ) (a : ℕ) : ℚ :=
  sumTo (fun j => ssDv a j * uMeas j) d.ndu

/-- Linear objective vector `q` recomputed by `ProblemBuilder::get`:
zeroed, then per step `i ≤ ph` the state rows
`ssCᵗ * wExtendedState * (-eRef + ssDv*uMeas)` and per step `i < ph`
the move rows `-(wDeltaU.col(i).asDiagonal() * deltaURef)`. -/
def qFun (d : Dims) (ssC ssDv wOutput wU wDeltaU : ℕ → ℕ → ℚ)
    (yRef uRef duRef uMeas : ℕ → ℚ) : ℕ → ℚ :=
  fun i =>
    let m := d.nx + d.nu
    let E := eqRows d
    if i < E then
      sumTo
        (fun a =>
          ssC a (i % m) * wExt d wOutput wU (i / m) a *
            (-(eRefFun d yRef uRef a) + dvProd d ssDv uMeas a))
        (d.ny + d.nu)
    else if i < E + d.ph * d.nu then
      -(wDeltaU ((i - E) % d.nu) ((i - E) / d.nu) * duRef ((i - E) % d.nu))
    else 0

/-- Equality bound recomputed by `ProblemBuilder::get`: zeroed, blocks
`i = 1..ph` set to `-ssBv*uMeas`, and finally the first `nx` rows set
to `-x0`. -/
def leqFun (d : Dims) (ssBv : ℕ → ℕ → ℚ) (x0 uMeas : ℕ → ℚ) : ℕ → ℚ :=
  fun i =>
    let m := d.nx + d.nu
    if i < d.nx then -(x0 i)
    else if i < m then 0
    else if i < eqRows d then -(sumTo (fun j => ssBv (i % m) j * uMeas j) d.ndu)
    else 0

/-- Update of the persistent inequality bound performed by
`ProblemBuilder::get`: the output rows get `ssDv.block(0,0,ny,ndu)*uMeas`
subtracted from their current value; no other row is touched and the
vector is not reinitialised. -/
def ineqStep (d : Dims) (ssDv : ℕ → ℕ → ℚ) (uMeas : ℕ → ℚ)
    (v : ℕ → XVal) : ℕ → XVal :=
  fun i =>
    let E := eqRows d
    if E ≤ i ∧ i < E + (d.ph + 1) * d.ny then
      (v i).subQ (dvProd d ssDv uMeas ((i - E) % d.ny))
    else v i

/-- Embedding of `ProblemBuilder::get`: recomputes `q`, `leq = ueq`,
updates `lineq` / `uineq` in place, and assembles `l` and `u` from the
equality and inequality segments.  The parameter `u0` is unused, as in
the source where it is commented out of the signature. -/
def getProblem (d : Dims) (b : Builder) (x0 u0 yRef uRef duRef uMeas : ℕ → ℚ) :
    Builder :=
  let leqNew := leqFun d b.ssBv x0 uMeas
  let lineqNew := ineqStep d b.ssDv uMeas b.lineq
  let uineqNew := ineqStep d b.ssDv uMeas b.uineq
  { b with
    q := qFun d b.ssC b.ssDv b.wOutput b.wU b.wDeltaU yRef uRef duRef uMeas
    leq := leqNew
    ueq := leqNew
    lineq := lineqNew
    uineq := uineqNew
    l := fun i => if i < eqRows d then XVal.val (leqNew i) else lineqNew (i - eqRows d)
    u := fun i => if i < eqRows d then XVal.val (leqNew i) else uineqNew (i - eqRows d) }

/-! ## Nonlinear optimizer adapter (`NLOptimizer.hpp`) -/

/-- Output of a successful inner `nlopt` solve: the optimal flat vector,
`last_optimum_value()` and `last_optimize_result()`. -/
structure SolveOutput where
  sol : ℕ → ℚ
  cost : ℚ
  retcode : ℤ

/-- Persistent state of `NLOptimizer` across `run` calls: the stored
result command `last_r.cmd` and the slack warm start `currentSlack`. -/
structure NLState where
  lastCmd : ℕ → ℚ
  currentSlack : ℚ

/-- Result of one `run` call.  `cost` is optional because the failure
branch of the source returns the `Result` without assigning `cost`. -/
structure NLResult where
  cmd : ℕ → ℚ
  retcode : ℤ
  cost : Option ℚ

/-- Warm-start vector `optX0` built by `NLOptimizer::run`: `x0`
replicated over the `ph` state blocks, `Iu2z` applied to `u0` replicated
over the `ph` steps, and the stored slack in the last slot. -/
def warmStart (d : Dims) (Iu2z : ℕ → ℕ → ℚ) (x0 u0 : ℕ → ℚ) (slack : ℚ) :
    ℕ → ℚ :=
  fun t =>
    if t < d.ph * d.nx then x0 (t % d.nx)
    else if t < d.ph * d.nx + d.nu * d.ch then
      sumTo (fun j => Iu2z (t - d.ph * d.nx) j * u0 (j % d.nu)) (d.ph * d.nu)
    else if t = d.ph * d.nx + d.nu * d.ch then slack
    else 0

/-- Embedding of `NLOptimizer::run`.  The inner `optimize` call is the
function argument `solver`; a thrown exception is its `Except.error`
outcome.  On success the solution is unwrapped through the mapping and
the first input row becomes the command; on failure the result carries
the previously stored command and the sentinel return code `-1`.  The
embedding is a total function: no failure propagates to the caller. -/
def NLrun (d : Dims) (Iz2u Iu2z : ℕ → ℕ → ℚ) (state_scaling : ℕ → ℚ)
    (solver : (ℕ → ℚ) → Except Unit SolveOutput) (st : NLState)
    (x0 u0 : ℕ → ℚ) : NLResult × NLState :=
  let optX0 := warmStart d Iu2z x0 u0 st.currentSlack
  match solver optX0 with
  | Except.ok out =>
      let w := unwrapVector d Iz2u state_scaling out.sol x0
      let r : NLResult :=
        { cmd := fun j => w.Umat 0 j, retcode := out.retcode, cost := some out.cost }
      (r, { lastCmd := r.cmd, currentSlack := w.slack })
  | Except.error _ =>
      let r : NLResult := { cmd := st.lastCmd, retcode := -1, cost := none }
      (r, { lastCmd := r.cmd, currentSlack := st.currentSlack })

/-! ## Linear front-end (`LMPC.hpp`) -/

/-- Embedding of `LMPC::setDisturbances(Bd, Dd)`.  The body of the
source method calls `builder.setExogenuosInput(B, D)`: the identifiers
`B` and `D` are not the parameters `Bd` / `Dd` but names resolved from
the enclosing scope (they are declared nowhere in the class).  Those
enclosing-scope bindings are modelled by the explicit arguments `envB`
and `envD`. -/
def LMPCsetDisturbances (d : Dims) (envB envD : ℕ → ℕ → ℚ) (b : Builder)
    (Bd Dd : ℕ → ℕ → ℚ) : Builder :=
  setExogenuosInput d b envB envD

/-! ## Auxiliary notions used by the theorems -/

/-- Builder operation (one public method call together with its
arguments), used to state invariants preserved by every subsequent
builder operation. -/
inductive BuilderOp where
  | stateModel (A B C : ℕ → ℕ → ℚ)
  | exogenuosInput (B D : ℕ → ℕ → ℚ)
  | objective (OW UW DW : ℕ → ℕ → ℚ)
  | constraints (XMin UMin YMin XMax UMax YMax : ℕ → ℕ → ℚ)
  | getOp (x0 u0 yRef uRef duRef uMeas : ℕ → ℚ)

/-- Dispatch of a `BuilderOp` to the corresponding builder method. -/
def applyOp (d : Dims) (b : Builder) : BuilderOp → Builder
  | BuilderOp.stateModel A B C => setStateModel d b A B C
  | BuilderOp.exogenuosInput B D => setExogenuosInput d b B D
  | BuilderOp.objective OW UW DW => setObjective d b OW UW DW
  | BuilderOp.constraints XMin UMin YMin XMax UMax YMax =>
      setConstraints d b XMin UMin YMin XMax UMax YMax
  | BuilderOp.getOp x0 u0 yRef uRef duRef uMeas =>
      getProblem d b x0 u0 yRef uRef duRef uMeas

/-- Invariant of the augmented model: the bottom-right `nu×nu` block of
`ssA` and the bottom `nu×nu` block of `ssB` are the identity. -/
def augInvariant (d : Dims) (b : Builder) : Prop :=
  ∀ i j, i < d.nu → j < d.nu →
    b.ssA (d.nx + i) (d.nx + j) = (if i = j then 1 else 0) ∧
    b.ssB (d.nx + i) j = (if i = j then 1 else 0)

/-- Quadratic form `zᵗ P z` of the objective matrix over the full
decision-variable range `(ph+1)(nx+nu) + ph·nu`. -/
def quadForm (d : Dims) (P : ℕ → ℕ → ℚ) (z : ℕ → ℚ) : ℚ :=
  ∑ i ∈ Finset.range (eqRows d + d.ph * d.nu),
    ∑ j ∈ Finset.range (eqRows d + d.ph * d.nu), z i * P i j * z j

/-! ## Concrete instances used by witnesses and counterexamples -/

/-- Dimension tuple `nx = nu = ndu = ny = ph = ch = 1`. -/
def cD : Dims := Dims.mk 1 1 1 1 1 1

/-- Dimension tuple `nx = 2, nu = 1, ndu = 1, ny = 1, ph = 3, ch = 2`. -/
def cD32 : Dims := Dims.mk 2 1 1 1 3 2

/-- Constant-zero vector. -/
def zeroF : ℕ → ℚ := fun _ => 0

/-- Constant-one vector. -/
def oneF : ℕ → ℚ := fun _ => 1

/-- Constant-two vector. -/
def twoF : ℕ → ℚ := fun _ => 2

/-- Constant-three vector. -/
def threeF : ℕ → ℚ := fun _ => 3

/-- Constant-zero matrix. -/
def zeroM : ℕ → ℕ → ℚ := fun _ _ => 0

/-- Constant-one matrix. -/
def oneM : ℕ → ℕ → ℚ := fun _ _ => 1

/-- Flat decision vector `[5, 7, 9]` for the `ph·nx + ch·nu + 1 = 3`
layout of `cD`. -/
def flatC : ℕ → ℚ := fun t => if t = 0 then 5 else if t = 1 then 7 else 9

/-- Builder for `cD` with `A = B = C = [1]`, `Bd = [0]`, `Dd = [1]` and
all box bounds zero. -/
def cB0 : Builder :=
  setConstraints cD
    (setExogenuosInput cD (setStateModel cD initBuilder oneM oneM oneM) zeroM oneM)
    zeroM zeroM zeroM zeroM zeroM zeroM

/-- State of `cB0` after one `get(x0 = 1, …, uMeas = 1)` call. -/
def cB1 : Builder := getProblem cD cB0 oneF zeroF zeroF zeroF zeroF oneF

/-- State of `cB1` after a second identical `get` call. -/
def cB2 : Builder := getProblem cD cB1 oneF zeroF zeroF zeroF zeroF oneF

/-! ## Claim theorems -/

/-- C10: the `u0` argument of the linear builder's `get` has no
influence on its result: for every builder state and any two values
`u0a`, `u0b`, the returned `Problem` bundle and the resulting builder
state are identical. -/
theorem C10_get_independent_of_u0 (d : Dims) (b : Builder)
    (x0 u0a u0b yRef uRef duRef uMeas : ℕ → ℚ) :
    getProblem d b x0 u0a yRef uRef duRef uMeas =
      getProblem d b x0 u0b yRef uRef duRef uMeas := rfl

/-- C9: the linear front-end `setDisturbances(Bd, Dd)` forwards the
enclosing-scope symbols `B`/`D` to `setExogenuosInput`, not the
parameters `Bd`/`Dd` just passed in: the result equals
`setExogenuosInput` applied to the enclosing-scope matrices and is
independent of the `Bd`/`Dd` arguments. -/
theorem C9_setDisturbances_forwards_stale_symbols (d : Dims)
    (envB envD : ℕ → ℕ → ℚ) (b : Builder) (Bd Dd Bd2 Dd2 : ℕ → ℕ → ℚ) :
    LMPCsetDisturbances d envB envD b Bd Dd = setExogenuosInput d b envB envD ∧
    LMPCsetDisturbances d envB envD b Bd Dd =
      LMPCsetDisturbances d envB envD b Bd2 Dd2 :=
  ⟨rfl, rfl⟩

/-- C6: whenever the inner solver's `optimize` call fails, `run`
returns a `Result` whose command is the previously stored command
unchanged and whose return code is `-1`; `NLrun` is a total function,
so no failure propagates to the caller. -/
theorem C6_run_failure_fallback (d : Dims) (Iz2u Iu2z : ℕ → ℕ → ℚ)
    (state_scaling : ℕ → ℚ) (solver : (ℕ → ℚ) → Except Unit SolveOutput)
    (st : NLState) (x0 u0 : ℕ → ℚ) (e : Unit)
    (h : solver (warmStart d Iu2z x0 u0 st.currentSlack) = Except.error e) :
    (NLrun d Iz2u Iu2z state_scaling solver st x0 u0).1.cmd = st.lastCmd ∧
    (NLrun d Iz2u Iu2z state_scaling solver st x0 u0).1.retcode = -1 := by
  unfold NLrun
  simp [h]

/-- Witness for C6 at `cD` with a solver that always fails. -/
theorem C6_witness :
    (fun _ => Except.error () : (ℕ → ℚ) → Except Unit SolveOutput)
        (warmStart cD oneM oneF oneF 0) = Except.error () ∧
    ((NLrun cD oneM oneM oneF (fun _ => Except.error ())
        (NLState.mk twoF 0) oneF oneF).1.cmd = twoF ∧
      (NLrun cD oneM oneM oneF (fun _ => Except.error ())
        (NLState.mk twoF 0) oneF oneF).1.retcode = -1) :=
  ⟨rfl,
    C6_run_failure_fallback cD oneM oneM oneF (fun _ => Except.error ())
      (NLState.mk twoF 0) oneF oneF () rfl⟩

/-- C3: for every builder and every `get` call, the first `nx` rows of
both the equality lower and upper bound of the returned `Problem` equal
`-x0`, and on the whole equality segment (the first `(ph+1)(nx+nu)`
rows) the lower and upper bounds coincide. -/
theorem C3_get_equality_bounds (d : Dims) (b : Builder)
    (x0 u0 yRef uRef duRef uMeas : ℕ → ℚ) :
    (∀ i, i < d.nx →
        (getProblem d b x0 u0 yRef uRef duRef uMeas).l i = XVal.val (-(x0 i)) ∧
        (getProblem d b x0 u0 yRef uRef duRef uMeas).u i = XVal.val (-(x0 i))) ∧
    (∀ i, i < eqRows d →
        (getProblem d b x0 u0 yRef uRef duRef uMeas).l i =
          (getProblem d b x0 u0 yRef uRef duRef uMeas).u i) := by
  have hnx : d.nx ≤ eqRows d := by
    have h1 : d.nx + d.nu ≤ (d.ph + 1) * (d.nx + d.nu) :=
      Nat.le_mul_of_pos_left _ (Nat.succ_pos _)
    have h2 : d.nx ≤ d.nx + d.nu := Nat.le_add_right _ _
    exact le_trans h2 h1
  constructor
  · intro i hi
    have hiE : i < eqRows d := lt_of_lt_of_le hi hnx
    constructor
    · simp only [getProblem, if_pos hiE]
      simp only [leqFun, if_pos hi]
    · simp only [getProblem, if_pos hiE]
      simp only [leqFun, if_pos hi]
  · intro i hiE
    simp only [getProblem, if_pos hiE]

/-- Witness for C3 at `cB0` with `x0 = 1`: row `0` of both bounds is
`-1` and the equality segment rows coincide. -/
theorem C3_witness :
    ((0 : ℕ) < cD.nx ∧ (0 : ℕ) < eqRows cD) ∧
    (cB1.l 0 = XVal.val (-(oneF 0)) ∧ cB1.u 0 = XVal.val (-(oneF 0)) ∧
      cB1.l 0 = cB1.u 0) :=
  ⟨⟨by decide, by decide⟩,
    ⟨((C3_get_equality_bounds cD cB0 oneF zeroF zeroF zeroF zeroF oneF).1 0
        (by decide)).1,
      ((C3_get_equality_bounds cD cB0 oneF zeroF zeroF zeroF zeroF oneF).1 0
        (by decide)).2,
      (C3_get_equality_bounds cD cB0 oneF zeroF zeroF zeroF zeroF oneF).2 0
        (by decide)⟩⟩

/-- Base lemma: `setStateModel` establishes the augmented model
invariant regardless of the previous builder state. -/
theorem setStateModel_augInvariant (d : Dims) (b : Builder)
    (A B C : ℕ → ℕ → ℚ) : augInvariant d (setStateModel d b A B C) := by
  intro i j hi hj
  have h1 : ¬ d.nx + i < d.nx := by omega
  have h2 : d.nx + i < d.nx + d.nu := by omega
  have h3 : ¬ d.nx + j < d.nx := by omega
  have h4 : d.nx + j < d.nx + d.nu := by omega
  have h5 : (d.nx + i = d.nx + j) = (i = j) := by
    simp only [eq_iff_iff]
    omega
  have h6 : (d.nx + i - d.nx = j) = (i = j) := by
    simp only [eq_iff_iff]
    omega
  constructor
  · show (if d.nx + i < d.nx then _
          else if d.nx + i < d.nx + d.nu then
            if d.nx + j < d.nx then (0 : ℚ)
            else if d.nx + j < d.nx + d.nu then
              (if d.nx + i = d.nx + j then 1 else 0)
            else 0
          else 0) = _
    simp only [if_neg h1, if_pos h2, if_neg h3, if_pos h4, h5]
  · show (if j < d.nu then
          if d.nx + i < d.nx then _
          else if d.nx + i < d.nx + d.nu then
            (if d.nx + i - d.nx = j then (1 : ℚ) else 0)
          else 0
        else 0) = _
    simp only [if_pos hj, if_neg h1, if_pos h2, h6]

/-- Preservation lemma: every builder operation preserves the augmented
model invariant (`setStateModel` re-establishes it outright; no other
operation writes `ssA` or `ssB`). -/
theorem applyOp_preserves_augInvariant (d : Dims) (b : Builder)
    (op : BuilderOp) (h : augInvariant d b) : augInvariant d (applyOp d b op) := by
  cases op with
  | stateModel A B C => exact setStateModel_augInvariant d b A B C
  | exogenuosInput B D => exact h
  | objective OW UW DW => exact h
  | constraints XMin UMin YMin XMax UMax YMax => exact h
  | getOp x0 u0 yRef uRef duRef uMeas => exact h

/-- Folding any list of builder operations preserves the augmented
model invariant. -/
theorem foldl_preserves_augInvariant (d : Dims) (ops : List BuilderOp) :
    ∀ b : Builder, augInvariant d b →
      augInvariant d (List.foldl (applyOp d) b ops) := by
  induction ops with
  | nil => intro b h; exact h
  | cons op rest ih =>
      intro b h
      exact ih (applyOp d b op) (applyOp_preserves_augInvariant d b op h)

/-- C7: after every `setStateModel(A, B, C)` call the bottom-right
`nu×nu` block of `ssA` and the bottom `nu×nu` block of `ssB` are the
identity, for all input matrices, and the invariant is preserved by
every subsequent sequence of builder operations. -/
theorem C7_augmented_model_invariant (d : Dims) (b : Builder)
    (A B C : ℕ → ℕ → ℚ) (ops : List BuilderOp) :
    augInvariant d (List.foldl (applyOp d) (setStateModel d b A B C) ops) :=
  foldl_preserves_augInvariant d ops _ (setStateModel_augInvariant d b A B C)

/-- Witness for C7: the invariant instantiated and evaluated at `cD`
after `setStateModel` on the freshly initialized builder. -/
theorem C7_witness :
    ((0 : ℕ) < cD.nu ∧ (0 : ℕ) < cD.nu) ∧
    ((setStateModel cD initBuilder oneM oneM oneM).ssA (cD.nx + 0) (cD.nx + 0) = 1 ∧
      (setStateModel cD initBuilder oneM oneM oneM).ssB (cD.nx + 0) 0 = 1) :=
  ⟨⟨by decide, by decide⟩, by
    have h := C7_augmented_model_invariant cD initBuilder oneM oneM oneM [] 0 0
      (by decide) (by decide)
    exact ⟨h.1, h.2⟩⟩

/-- C4: after `buildTITerms`, the rate-constraint row for horizon step
`i`, channel `k`, carries the bounds `[0, 0]` exactly when `i > ch` and
`(-inf, inf)` otherwise. -/
theorem C4_rate_bounds_zero_beyond_ch (d : Dims) (b : Builder) (i k : ℕ)
    (hi : i < d.ph) (hk : k < d.nu) :
    (buildTITerms d b).lineq (eqRows d + (d.ph + 1) * d.ny + (i * d.nu + k)) =
      (if d.ch < i then XVal.val 0 else XVal.ninf) ∧
    (buildTITerms d b).uineq (eqRows d + (d.ph + 1) * d.ny + (i * d.nu + k)) =
      (if d.ch < i then XVal.val 0 else XVal.pinf) := by
  have hnu : 0 < d.nu := by omega
  have ht : i * d.nu + k < d.ph * d.nu := by
    calc i * d.nu + k < i * d.nu + d.nu := by omega
    _ = (i + 1) * d.nu := by ring
    _ ≤ d.ph * d.nu := Nat.mul_le_mul_right _ (by omega)
  have h1 : ¬ eqRows d + (d.ph + 1) * d.ny + (i * d.nu + k) < eqRows d := by omega
  have h2 : ¬ eqRows d + (d.ph + 1) * d.ny + (i * d.nu + k) <
      eqRows d + (d.ph + 1) * d.ny := by omega
  have h3 : eqRows d + (d.ph + 1) * d.ny + (i * d.nu + k) <
      eqRows d + (d.ph + 1) * d.ny + d.ph * d.nu := by omega
  have h4 : eqRows d + (d.ph + 1) * d.ny + (i * d.nu + k) -
      (eqRows d + (d.ph + 1) * d.ny) = i * d.nu + k := by omega
  have h5 : (i * d.nu + k) / d.nu = i := by
    rw [show i * d.nu + k = k + d.nu * i by ring, Nat.add_mul_div_left _ _ hnu,
      Nat.div_eq_of_lt hk]
    omega
  constructor
  · show (if _ < eqRows d then _ else _) = _
    simp only [lineqTI, if_neg h1, if_neg h2, if_pos h3, h4, h5]
  · show (if _ < eqRows d then _ else _) = _
    simp only [uineqTI, if_neg h1, if_neg h2, if_pos h3, h4, h5]

/-- Witness for C4 at `cD` (`ph = ch = nu = 1`), step `i = 0`: since
`0 > ch` fails, the rate bounds are `(-inf, inf)`. -/
theorem C4_witness :
    ((0 : ℕ) < cD.ph ∧ (0 : ℕ) < cD.nu) ∧
    ((buildTITerms cD cB0).lineq
        (eqRows cD + (cD.ph + 1) * cD.ny + (0 * cD.nu + 0)) = XVal.ninf ∧
      (buildTITerms cD cB0).uineq
        (eqRows cD + (cD.ph + 1) * cD.ny + (0 * cD.nu + 0)) = XVal.pinf) :=
  ⟨⟨by decide, by decide⟩,
    C4_rate_bounds_zero_beyond_ch cD cB0 0 0 (by decide) (by decide)⟩

/-- C5 counterexample: with state scaling `2`, flat vector `[5, 7, 9]`
and `x0 = 3` on the all-ones mapping of `cD`, the state trajectory's
row `0` is `6 ≠ x0 0 = 3` (it is `x0` multiplied by the scaling, not
`x0` exactly) and row `1` is `10 ≠ 5 · (1/2)` (the state block is
multiplied by the scaling, not by the inverse scaling). -/
theorem C5_counterexample :
    (unwrapVector cD (Iz2uMat cD oneF) twoF flatC threeF).Xmat 0 0 ≠ threeF 0 ∧
    (unwrapVector cD (Iz2uMat cD oneF) twoF flatC threeF).Xmat 1 0 ≠
      flatC 0 * (1 / twoF 0) := by
  constructor
  · intro h
    norm_num [unwrapVector, cD, threeF, twoF, flatC] at h
  · intro h
    norm_num [unwrapVector, cD, threeF, twoF, flatC] at h

/-- C5 (amended): `unwrapVector` produces a state trajectory whose row
`0` equals `x0` with each column multiplied by the state scaling, whose
rows `1..ph` equal the `nx`-blocks of the flat vector with each column
multiplied by the state scaling (the source divides by the cached
reciprocal), an input trajectory equal to `Iz2u` times the
control-horizon moves reshaped to `ph` rows with a terminal row
duplicating the last, and a slack equal to the last scalar. -/
theorem unwrap_Xmat_eq (d : Dims) (Iz2u : ℕ → ℕ → ℚ) (s : ℕ → ℚ)
    (x x0 : ℕ → ℚ) (i j : ℕ) :
    (unwrapVector d Iz2u s x x0).Xmat i j =
      (if j < d.nx then
        if i = 0 then x0 j
        else if i < d.ph + 1 then x ((i - 1) * d.nx + j) else 0
      else 0) / (1 / s j) := rfl

theorem unwrap_Umat_eq (d : Dims) (Iz2u : ℕ → ℕ → ℚ) (s : ℕ → ℚ)
    (x x0 : ℕ → ℚ) (i j : ℕ) :
    (unwrapVector d Iz2u s x x0).Umat i j =
      if i < d.ph + 1 ∧ j < d.nu then
        if i < d.ph then
          sumTo (fun k => Iz2u (i * d.nu + j) k * x (d.ph * d.nx + k)) (d.nu * d.ch)
        else if i = d.ph then
          sumTo (fun k => Iz2u ((d.ph - 1) * d.nu + j) k * x (d.ph * d.nx + k))
            (d.nu * d.ch)
        else 0
      else 0 := rfl

theorem C5_unwrapVector_spec (d : Dims) (Iz2u : ℕ → ℕ → ℚ) (s : ℕ → ℚ)
    (x x0 : ℕ → ℚ) :
    (∀ j, j < d.nx → (unwrapVector d Iz2u s x x0).Xmat 0 j = x0 j * s j) ∧
    (∀ i j, 1 ≤ i → i ≤ d.ph → j < d.nx →
        (unwrapVector d Iz2u s x x0).Xmat i j = x ((i - 1) * d.nx + j) * s j) ∧
    (∀ i j, i < d.ph →
        (unwrapVector d Iz2u s x x0).Umat i j =
          if j < d.nu then
            sumTo (fun k => Iz2u (i * d.nu + j) k * x (d.ph * d.nx + k))
              (d.nu * d.ch)
          else 0) ∧
    (∀ j, (unwrapVector d Iz2u s x x0).Umat d.ph j =
        (unwrapVector d Iz2u s x x0).Umat (d.ph - 1) j) ∧
    (unwrapVector d Iz2u s x x0).slack = x (d.ph * d.nx + d.nu * d.ch) := by
  refine ⟨?_, ?_, ?_, ?_, rfl⟩
  · intro j hj
    rw [unwrap_Xmat_eq, if_pos hj, if_pos rfl, one_div, div_inv_eq_mul]
  · intro i j h1 h2 hj
    have hne : ¬ i = 0 := by omega
    have hlt : i < d.ph + 1 := by omega
    rw [unwrap_Xmat_eq, if_pos hj, if_neg hne, if_pos hlt, one_div,
      div_inv_eq_mul]
  · intro i j hi
    rw [unwrap_Umat_eq]
    by_cases hj : j < d.nu
    · rw [if_pos ⟨by omega, hj⟩, if_pos hi, if_pos hj]
    · rw [if_neg (by tauto), if_neg hj]
  · intro j
    rw [unwrap_Umat_eq, unwrap_Umat_eq]
    by_cases hj : j < d.nu
    · by_cases hph : 1 ≤ d.ph
      · have e1 : d.ph < d.ph + 1 ∧ j < d.nu := ⟨by omega, hj⟩
        rw [if_pos e1, if_neg (lt_irrefl d.ph), if_pos rfl]
        have e2 : d.ph - 1 < d.ph + 1 ∧ j < d.nu := ⟨by omega, hj⟩
        rw [if_pos e2, if_pos (show d.ph - 1 < d.ph by omega)]
      · have hph0 : d.ph = 0 := by omega
        rw [hph0]
    · rw [if_neg (by tauto), if_neg (by tauto)]

/-- Witness for C5 (amended) on the `cD` instance with scaling `2`. -/
theorem C5_witness :
    ((0 : ℕ) < cD.nx ∧ (1 : ℕ) ≤ cD.ph) ∧
    ((unwrapVector cD (Iz2uMat cD oneF) twoF flatC threeF).Xmat 0 0 =
        threeF 0 * twoF 0 ∧
      (unwrapVector cD (Iz2uMat cD oneF) twoF flatC threeF).Xmat 1 0 =
        flatC 0 * twoF 0 ∧
      (unwrapVector cD (Iz2uMat cD oneF) twoF flatC threeF).slack = flatC 2) :=
  ⟨⟨by decide, by decide⟩,
    (C5_unwrapVector_spec cD (Iz2uMat cD oneF) twoF flatC threeF).1 0 (by decide),
    (C5_unwrapVector_spec cD (Iz2uMat cD oneF) twoF flatC threeF).2.1 1 0
      (by decide) (by decide) (by decide),
    (C5_unwrapVector_spec cD (Iz2uMat cD oneF) twoF flatC threeF).2.2.2.2⟩

/-- C2 (code bug): `get` does not recompute the inequality bounds from
scratch — the member `lineq` is only initialised by `buildTITerms` and
`get` subtracts `ssDv·uMeas` from it in place, so the disturbance
offset accumulates across calls.  On `cB0` (with `minY = 0`,
`ssDv·uMeas = 1`) the first output-constraint row of `l` (index
`eqRows + eqRows = 8`) is `-1` after the first `get` call, as the claim
predicts, but `-2` after a second identical call, so two consecutive
calls do not return identical bundles. -/
theorem C2_bug_inequality_bounds_accumulate :
    cB1.l 8 = XVal.val (-1) ∧ cB2.l 8 = XVal.val (-2) ∧ ¬ cB1.l 8 = cB2.l 8 := by
  have h1 : cB1.l 8 = XVal.val (-1) := by
    simp [cB1, cB0, cD, getProblem, ineqStep, eqRows, buildTITerms, lineqTI,
      setConstraints, setExogenuosInput, setStateModel, setObjective, dupCol0,
      eBoxEntry, dvProd, sumTo, XVal.subQ, oneF, zeroF, oneM, zeroM, leqFun,
      Finset.sum_range_one, Finset.filter_singleton]
  have h2 : cB2.l 8 = XVal.val (-2) := by
    simp [cB2, cB1, cB0, cD, getProblem, ineqStep, eqRows, buildTITerms,
      lineqTI, setConstraints, setExogenuosInput, setStateModel, setObjective,
      dupCol0, eBoxEntry, dvProd, sumTo, XVal.subQ, oneF, zeroF, oneM, zeroM,
      leqFun, Finset.sum_range_one, Finset.filter_singleton]
    norm_num
  refine ⟨h1, h2, ?_⟩
  rw [h1, h2]
  intro h
  simp only [XVal.val.injEq] at h
  norm_num at h

/-- Row offset after the inner replication loop: advanced by `nu` per
written block. -/
theorem innerWrites_jx (nu : ℕ) (S : ℕ → ℕ → ℚ) (ix : ℕ) :
    ∀ (cnt : ℕ) (st : MapLoopState),
      (innerWrites nu S ix cnt st).jx = st.jx + cnt * nu := by
  intro cnt
  induction cnt with
  | zero => intro st; simp [innerWrites]
  | succ n ih =>
      intro st
      show (innerWrites nu S ix n _).jx = _
      rw [ih]
      show st.jx + nu + n * nu = st.jx + (n + 1) * nu
      ring

/-- The inner replication loop does not touch `Iu2z`. -/
theorem innerWrites_Iu2z (nu : ℕ) (S : ℕ → ℕ → ℚ) (ix : ℕ) :
    ∀ (cnt : ℕ) (st : MapLoopState),
      (innerWrites nu S ix cnt st).Iu2z = st.Iu2z := by
  intro cnt
  induction cnt with
  | zero => intro st; rfl
  | succ n ih => intro st; exact ih _

/-- Entries written by the inner replication loop: `cnt` consecutive
`nu×nu` copies of `S` in the column window starting at `ix`, rows
starting at the incoming `jx`. -/
theorem innerWrites_Iz2u (nu : ℕ) (S : ℕ → ℕ → ℚ) (ix : ℕ) :
    ∀ (cnt : ℕ) (st : MapLoopState) (r c : ℕ),
      (innerWrites nu S ix cnt st).Iz2u r c =
        if ix ≤ c ∧ c < ix + nu ∧ st.jx ≤ r ∧ r < st.jx + cnt * nu then
          S ((r - st.jx) % nu) (c - ix)
        else st.Iz2u r c := by
  intro cnt
  induction cnt with
  | zero =>
      intro st r c
      rw [if_neg]
      · rfl
      · rintro ⟨-, -, h1, h2⟩
        omega
  | succ n ih =>
      intro st r c
      have hmul : (n + 1) * nu = n * nu + nu := by ring
      show (innerWrites nu S ix n
        { st with Iz2u := placeBlock nu S st.Iz2u st.jx ix, jx := st.jx + nu }).Iz2u r c = _
      rw [ih]
      by_cases hc : ix ≤ c ∧ c < ix + nu
      · by_cases hr1 : st.jx + nu ≤ r ∧ r < st.jx + nu + n * nu
        · rw [if_pos ⟨hc.1, hc.2, hr1.1, hr1.2⟩,
            if_pos ⟨hc.1, hc.2, by omega, by omega⟩]
          have hsub : r - (st.jx + nu) = r - st.jx - nu := by omega
          have hmod : (r - st.jx - nu) % nu = (r - st.jx) % nu :=
            (Nat.mod_eq_sub_mod (by omega)).symm
          rw [hsub, hmod]
        · rw [if_neg (by tauto)]
          by_cases hr2 : st.jx ≤ r ∧ r < st.jx + nu
          · show placeBlock nu S st.Iz2u st.jx ix r c = _
            rw [placeBlock, if_pos ⟨hr2.1, hr2.2, hc.1, hc.2⟩,
              if_pos ⟨hc.1, hc.2, hr2.1, by omega⟩,
              Nat.mod_eq_of_lt (by omega : r - st.jx < nu)]
          · show placeBlock nu S st.Iz2u st.jx ix r c = _
            rw [placeBlock, if_neg (by tauto), if_neg (by intro h; omega)]
      · rw [if_neg (by tauto), if_neg (by tauto)]
        show placeBlock nu S st.Iz2u st.jx ix r c = _
        rw [placeBlock, if_neg (by tauto)]

/-- Row offset after `i` outer iterations: `nu` times the running sum
of replication counts. -/
theorem mapLoop_jx (nu : ℕ) (mv : ℕ → ℕ) (Sz Su : ℕ → ℕ → ℚ) :
    ∀ i, (mapLoop nu mv Sz Su i).jx = nu * ∑ k ∈ Finset.range i, mv k := by
  intro i
  induction i with
  | zero => simp [mapLoop]
  | succ n ih =>
      show (innerWrites nu Sz (n * nu) (mv n)
        { mapLoop nu mv Sz Su n with
          Iu2z := placeBlock nu Su (mapLoop nu mv Sz Su n).Iu2z (n * nu)
            (mapLoop nu mv Sz Su n).jx }).jx = _
      rw [innerWrites_jx]
      show (mapLoop nu mv Sz Su n).jx + mv n * nu = _
      rw [ih, Finset.sum_range_succ]
      ring

/-- Entries of `Iz2u` after `i` outer iterations: column-block
`cb = c / nu` is occupied by `mv cb` consecutive row-blocks starting at
row `nu · (running sum of previous counts)`, everything else is zero. -/
theorem mapLoop_Iz2u (nu : ℕ) (mv : ℕ → ℕ) (Sz Su : ℕ → ℕ → ℚ) :
    ∀ i r c, (mapLoop nu mv Sz Su i).Iz2u r c =
      if c < i * nu ∧ nu * (∑ k ∈ Finset.range (c / nu), mv k) ≤ r ∧
          r < nu * (∑ k ∈ Finset.range (c / nu), mv k) + mv (c / nu) * nu then
        Sz ((r - nu * (∑ k ∈ Finset.range (c / nu), mv k)) % nu) (c % nu)
      else 0 := by
  intro i
  induction i with
  | zero =>
      intro r c
      rw [if_neg]
      · rfl
      · intro h
        omega
  | succ n ih =>
      intro r c
      have hmul : (n + 1) * nu = n * nu + nu := by ring
      show (innerWrites nu Sz (n * nu) (mv n)
        { mapLoop nu mv Sz Su n with
          Iu2z := placeBlock nu Su (mapLoop nu mv Sz Su n).Iu2z (n * nu)
            (mapLoop nu mv Sz Su n).jx }).Iz2u r c = _
      rw [innerWrites_Iz2u]
      show (if n * nu ≤ c ∧ c < n * nu + nu ∧ (mapLoop nu mv Sz Su n).jx ≤ r ∧
          r < (mapLoop nu mv Sz Su n).jx + mv n * nu then
            Sz ((r - (mapLoop nu mv Sz Su n).jx) % nu) (c - n * nu)
          else (mapLoop nu mv Sz Su n).Iz2u r c) = _
      rw [mapLoop_jx]
      by_cases hc : n * nu ≤ c ∧ c < n * nu + nu
      · have hnu : 0 < nu := by omega
        have ht : c - n * nu < nu := by omega
        have hdiv : c / nu = n := by
          rw [show c = (c - n * nu) + n * nu by omega,
            Nat.add_mul_div_right _ _ hnu, Nat.div_eq_of_lt ht]
          omega
        have hmod : c % nu = c - n * nu := by
          conv_lhs => rw [show c = (c - n * nu) + n * nu by omega]
          rw [Nat.add_mul_mod_self_right, Nat.mod_eq_of_lt ht]
        rw [hdiv, hmod]
        by_cases hr : nu * (∑ k ∈ Finset.range n, mv k) ≤ r ∧
            r < nu * (∑ k ∈ Finset.range n, mv k) + mv n * nu
        · rw [if_pos ⟨hc.1, hc.2, hr.1, hr.2⟩, if_pos ⟨by omega, hr.1, hr.2⟩]
        · rw [if_neg (by tauto), ih r c, hdiv, hmod,
            if_neg (by intro h; omega), if_neg (by tauto)]
      · rw [if_neg (by tauto), ih r c]
        by_cases hc2 : c < n * nu
        · exact if_congr (by constructor <;> (rintro ⟨h1, h2⟩; exact ⟨by omega, h2⟩))
            rfl rfl
        · have hge : n * nu + nu ≤ c := by
            rcases Nat.lt_or_ge c (n * nu) with h | h
            · exact absurd h hc2
            · rcases Nat.lt_or_ge c (n * nu + nu) with h2 | h2
              · exact absurd ⟨h, h2⟩ hc
              · exact h2
          rw [if_neg (by intro h; omega), if_neg (by intro h; omega)]

/-- Block-offset comparison: with a remainder below `nu`, a multiple of
`nu` is below `rb * nu + rr` exactly when the block index is. -/
theorem block_le_iff (nu A rb rr : ℕ) (h : rr < nu) :
    A * nu ≤ rb * nu + rr ↔ A ≤ rb := by
  constructor
  · intro hle
    by_contra hlt
    push_neg at hlt
    have h2 : rb + 1 ≤ A := hlt
    have h3 : (rb + 1) * nu ≤ A * nu := Nat.mul_le_mul_right _ h2
    have h4 : (rb + 1) * nu = rb * nu + nu := by ring
    omega
  · intro hle
    have h3 : A * nu ≤ rb * nu := Nat.mul_le_mul_right _ hle
    omega

/-- Strict block-offset comparison, companion of `block_le_iff`. -/
theorem block_lt_iff (nu B rb rr : ℕ) (h : rr < nu) :
    rb * nu + rr < B * nu ↔ rb < B := by
  constructor
  · intro hlt
    by_contra hge
    push_neg at hge
    have h3 : B * nu ≤ rb * nu := Nat.mul_le_mul_right _ hge
    omega
  · intro hlt
    have h2 : rb + 1 ≤ B := hlt
    have h3 : (rb + 1) * nu ≤ B * nu := Nat.mul_le_mul_right _ h2
    have h4 : (rb + 1) * nu = rb * nu + nu := by ring
    omega

/-- The replication counts sum to `ph`: `ch - 1` entries equal to `1`
plus the final entry `ph - ch + 1`. -/
theorem mOffset_total (ph ch : ℕ) (h1 : 1 ≤ ch) (h2 : ch ≤ ph) :
    mOffset ph ch ch = ph := by
  obtain ⟨c, rfl⟩ : ∃ c, ch = c + 1 := ⟨ch - 1, by omega⟩
  unfold mOffset
  rw [Finset.sum_range_succ]
  have he : ∀ k ∈ Finset.range c, mVec ph (c + 1) k = 1 := by
    intro k hk
    rw [Finset.mem_range] at hk
    unfold mVec
    rw [if_neg (by omega)]
  rw [Finset.sum_congr rfl he, Finset.sum_const, Finset.card_range,
    smul_eq_mul, mul_one]
  unfold mVec
  rw [if_pos (by omega : c = c + 1 - 1)]
  omega

/-- Monotone bound on the running replication sums: every partial sum
plus its own count stays within the total. -/
theorem mOffset_succ_le (ph ch : ℕ) (j : ℕ) (hj : j < ch) :
    mOffset ph ch j + mVec ph ch j ≤ mOffset ph ch ch := by
  have hstep : mOffset ph ch j + mVec ph ch j = mOffset ph ch (j + 1) := by
    unfold mOffset
    rw [Finset.sum_range_succ]
  rw [hstep]
  unfold mOffset
  exact Finset.sum_le_sum_of_subset (Finset.range_subset.2 (by omega))

/-- C1: for every dimension tuple with `1 ≤ ch ≤ ph` and every positive
input scaling, the replication vector `m` has every entry `1` except
the last, which is `ph - ch + 1`; the counts sum to `ph`; column-block
`cb` of `Iz2uMat` holds exactly `m cb` consecutive `nu×nu`
scaled-identity blocks starting at the row-block given by the running
sum of the previous counts, all other entries being zero; and the
matrix vanishes outside its `(ph·nu)×(ch·nu)` shape. -/
theorem C1_computeMapping_structure (d : Dims) (s : ℕ → ℚ)
    (hch : 1 ≤ d.ch) (hphch : d.ch ≤ d.ph) (hs : ∀ k, k < d.nu → 0 < s k) :
    (∀ i, i < d.ch →
        mVec d.ph d.ch i = if i = d.ch - 1 then d.ph - d.ch + 1 else 1) ∧
    mOffset d.ph d.ch d.ch = d.ph ∧
    (∀ rb cb rr cc, rb < d.ph → cb < d.ch → rr < d.nu → cc < d.nu →
        Iz2uMat d s (rb * d.nu + rr) (cb * d.nu + cc) =
          if mOffset d.ph d.ch cb ≤ rb ∧
              rb < mOffset d.ph d.ch cb + mVec d.ph d.ch cb then
            (if rr = cc then s rr else 0)
          else 0) ∧
    (∀ r c, d.ph * d.nu ≤ r ∨ d.ch * d.nu ≤ c → Iz2uMat d s r c = 0) := by
  refine ⟨fun i _ => rfl, mOffset_total d.ph d.ch hch hphch, ?_, ?_⟩
  · intro rb cb rr cc hrb hcb hrr hcc
    have hnu : 0 < d.nu := by omega
    rw [Iz2uMat, mapLoop_Iz2u]
    have hcdiv : (cb * d.nu + cc) / d.nu = cb := by
      rw [show cb * d.nu + cc = cc + cb * d.nu by ring,
        Nat.add_mul_div_right _ _ hnu, Nat.div_eq_of_lt hcc]
      omega
    have hcmod : (cb * d.nu + cc) % d.nu = cc := by
      conv_lhs => rw [show cb * d.nu + cc = cc + cb * d.nu by ring]
      rw [Nat.add_mul_mod_self_right, Nat.mod_eq_of_lt hcc]
    rw [hcdiv, hcmod]
    have hcbound : cb * d.nu + cc < d.ch * d.nu := by
      have := (block_lt_iff d.nu d.ch cb cc hcc).2 hcb
      exact this
    set off := ∑ k ∈ Finset.range cb, mVec d.ph d.ch k with hoff
    have hoffm : mOffset d.ph d.ch cb = off := rfl
    rw [hoffm]
    have hle : d.nu * off ≤ rb * d.nu + rr ↔ off ≤ rb := by
      rw [Nat.mul_comm d.nu off]
      exact block_le_iff d.nu off rb rr hrr
    have hlt : rb * d.nu + rr < d.nu * off + mVec d.ph d.ch cb * d.nu ↔
        rb < off + mVec d.ph d.ch cb := by
      rw [Nat.mul_comm d.nu off, show off * d.nu + mVec d.ph d.ch cb * d.nu =
        (off + mVec d.ph d.ch cb) * d.nu by ring]
      exact block_lt_iff d.nu _ rb rr hrr
    by_cases hocc : off ≤ rb ∧ rb < off + mVec d.ph d.ch cb
    · rw [if_pos ⟨hcbound, hle.2 hocc.1, hlt.2 hocc.2⟩, if_pos hocc]
      have hsub1 : (rb - off) * d.nu = rb * d.nu - off * d.nu := Nat.sub_mul _ _ _
      have hsub2 : off * d.nu ≤ rb * d.nu := Nat.mul_le_mul_right _ hocc.1
      have harg : rb * d.nu + rr - d.nu * off = (rb - off) * d.nu + rr := by
        rw [Nat.mul_comm d.nu off]
        omega
      rw [harg, show (rb - off) * d.nu + rr = rr + (rb - off) * d.nu by ring,
        Nat.add_mul_mod_self_right, Nat.mod_eq_of_lt hrr]
      show (if rr < d.nu ∧ rr = cc then s rr else 0) = _
      by_cases hq : rr = cc
      · rw [if_pos ⟨hrr, hq⟩, if_pos hq]
      · rw [if_neg (by tauto), if_neg hq]
    · rw [if_neg (by intro h; exact hocc ⟨hle.1 h.2.1, hlt.1 h.2.2⟩), if_neg hocc]
  · intro r c hor
    rw [Iz2uMat, mapLoop_Iz2u]
    rcases hor with hr | hc
    · by_cases hnu : 0 < d.nu
      · rw [if_neg]
        rintro ⟨h1, h2, h3⟩
        have hcb : c / d.nu < d.ch := by
          rw [Nat.div_lt_iff_lt_mul hnu]
          exact h1
        have hmono := mOffset_succ_le d.ph d.ch (c / d.nu) hcb
        rw [mOffset_total d.ph d.ch hch hphch] at hmono
        have hcollect : d.nu * (∑ k ∈ Finset.range (c / d.nu), mVec d.ph d.ch k) +
            mVec d.ph d.ch (c / d.nu) * d.nu =
            (mOffset d.ph d.ch (c / d.nu) + mVec d.ph d.ch (c / d.nu)) * d.nu := by
          unfold mOffset
          ring
        have hbound : (mOffset d.ph d.ch (c / d.nu) + mVec d.ph d.ch (c / d.nu)) *
            d.nu ≤ d.ph * d.nu := Nat.mul_le_mul_right _ hmono
        omega
      · have hnu0 : d.nu = 0 := by omega
        rw [if_neg]
        rintro ⟨h1, h2, h3⟩
        rw [hnu0] at h3
        omega
    · rw [if_neg]
      rintro ⟨h1, -, -⟩
      have : c < d.ch * d.nu := h1
      omega

/-- Witness for C1 at `cD32` (`ph = 3, ch = 2, nu = 1`) with unit
scaling: the counts sum to `ph` and row-block `2` of column-block `1`
(the tail block, replicated `ph - ch + 1 = 2` times from offset `1`)
carries the scaled-identity entry. -/
theorem C1_witness :
    ((1 : ℕ) ≤ cD32.ch ∧ cD32.ch ≤ cD32.ph ∧ (0 : ℚ) < oneF 0) ∧
    (mOffset cD32.ph cD32.ch cD32.ch = cD32.ph ∧
      Iz2uMat cD32 oneF (2 * cD32.nu + 0) (1 * cD32.nu + 0) =
        (if mOffset cD32.ph cD32.ch 1 ≤ 2 ∧
            2 < mOffset cD32.ph cD32.ch 1 + mVec cD32.ph cD32.ch 1 then
          (if (0 : ℕ) = 0 then oneF 0 else 0)
        else 0)) :=
  ⟨⟨by decide, by decide, one_pos⟩,
    (C1_computeMapping_structure cD32 oneF (by decide) (by decide)
        (fun k _ => one_pos)).2.1,
    (C1_computeMapping_structure cD32 oneF (by decide) (by decide)
        (fun k _ => one_pos)).2.2.1 2 1 0 0 (by decide) (by decide) (by decide)
      (by decide)⟩

/-- Reindexing of a sum over `n * m` consecutive indices as a double
sum over block and offset. -/
theorem sum_range_mul_eq (f : ℕ → ℚ) (n m : ℕ) :
    ∑ i ∈ Finset.range (n * m), f i =
      ∑ k ∈ Finset.range n, ∑ r ∈ Finset.range m, f (k * m + r) := by
  induction n with
  | zero => simp
  | succ p ih =>
      rw [show (p + 1) * m = p * m + m by ring, Finset.sum_range_add, ih,
        Finset.sum_range_succ]

/-- A conditional independent of the summation index pulls out of the
sum. -/
theorem sum_ite_const (p : Prop) [Decidable p] (n : ℕ) (f : ℕ → ℚ) :
    (∑ c ∈ Finset.range n, if p then f c else 0) =
      if p then ∑ c ∈ Finset.range n, f c else 0 := by
  split_ifs <;> simp

/-- Division and remainder of an in-block index. -/
theorem blockDiv (m k r : ℕ) (hr : r < m) :
    (k * m + r) / m = k ∧ (k * m + r) % m = r := by
  have hm : 0 < m := by omega
  constructor
  · rw [show k * m + r = r + k * m by ring, Nat.add_mul_div_right _ _ hm,
      Nat.div_eq_of_lt hr]
    omega
  · conv_lhs => rw [show k * m + r = r + k * m by ring]
    rw [Nat.add_mul_mod_self_right, Nat.mod_eq_of_lt hr]

/-- The step-`k` objective block is symmetric. -/
theorem PStateEntry_symm (d : Dims) (ssC wO wU : ℕ → ℕ → ℚ) (k r c : ℕ) :
    PStateEntry d ssC wO wU k r c = PStateEntry d ssC wO wU k c r := by
  unfold PStateEntry sumTo
  exact Finset.sum_congr rfl (fun a _ => by ring)

/-- Entry of `P` inside the state section: zero across distinct
diagonal blocks, the `ssCᵗ W ssC` block entry on the diagonal. -/
theorem Pfun_state_entry (d : Dims) (ssC wO wU wD : ℕ → ℕ → ℚ)
    (k r k2 c : ℕ) (hk : k < d.ph + 1) (hk2 : k2 < d.ph + 1)
    (hr : r < d.nx + d.nu) (hc : c < d.nx + d.nu) :
    Pfun d ssC wO wU wD (k * (d.nx + d.nu) + r) (k2 * (d.nx + d.nu) + c) =
      if k = k2 then PStateEntry d ssC wO wU k r c else 0 := by
  have h1 : k * (d.nx + d.nu) + r < eqRows d :=
    (block_lt_iff (d.nx + d.nu) (d.ph + 1) k r hr).2 hk
  have h2 : k2 * (d.nx + d.nu) + c < eqRows d :=
    (block_lt_iff (d.nx + d.nu) (d.ph + 1) k2 c hc).2 hk2
  obtain ⟨hd1, hm1⟩ := blockDiv (d.nx + d.nu) k r hr
  obtain ⟨hd2, hm2⟩ := blockDiv (d.nx + d.nu) k2 c hc
  unfold Pfun
  rw [if_pos ⟨h1, h2⟩, hd1, hd2, hm1, hm2]

/-- Entry of `P` inside the input-increment tail section: a diagonal of
`wDeltaU` values. -/
theorem Pfun_delta_entry (d : Dims) (ssC wO wU wD : ℕ → ℕ → ℚ)
    (t t2 : ℕ) (ht : t < d.ph * d.nu) (ht2 : t2 < d.ph * d.nu) :
    Pfun d ssC wO wU wD (eqRows d + t) (eqRows d + t2) =
      if t = t2 then wD (t % d.nu) (t / d.nu) else 0 := by
  unfold Pfun
  rw [if_neg (by omega), if_pos ⟨by omega, by omega, by omega, by omega⟩]
  rw [show eqRows d + t - eqRows d = t by omega]
  exact if_congr (by omega) rfl rfl

/-- Entries of `P` coupling the state section to the tail section
vanish (row in the state section). -/
theorem Pfun_cross_row (d : Dims) (ssC wO wU wD : ℕ → ℕ → ℚ) (i j : ℕ)
    (hi : i < eqRows d) (hj : eqRows d ≤ j) :
    Pfun d ssC wO wU wD i j = 0 := by
  unfold Pfun
  rw [if_neg (by omega), if_neg (by omega)]

/-- Entries of `P` coupling the tail section to the state section
vanish (column in the state section). -/
theorem Pfun_cross_col (d : Dims) (ssC wO wU wD : ℕ → ℕ → ℚ) (i j : ℕ)
    (hi : eqRows d ≤ i) (hj : j < eqRows d) :
    Pfun d ssC wO wU wD i j = 0 := by
  unfold Pfun
  rw [if_neg (by omega), if_neg (by omega)]

/-- Entry of `P` in the state section, both indices in range, in terms
of block index and offsets. -/
theorem Pfun_state_raw (d : Dims) (ssC wO wU wD : ℕ → ℕ → ℚ) (i j : ℕ)
    (hi : i < eqRows d) (hj : j < eqRows d) :
    Pfun d ssC wO wU wD i j =
      if i / (d.nx + d.nu) = j / (d.nx + d.nu) then
        PStateEntry d ssC wO wU (i / (d.nx + d.nu)) (i % (d.nx + d.nu))
          (j % (d.nx + d.nu))
      else 0 := by
  simp only [Pfun]
  rw [if_pos ⟨hi, hj⟩]

/-- Entry of `P` in the tail section, both indices in range. -/
theorem Pfun_delta_raw (d : Dims) (ssC wO wU wD : ℕ → ℕ → ℚ) (i j : ℕ)
    (hi1 : eqRows d ≤ i) (hi2 : i < eqRows d + d.ph * d.nu)
    (hj1 : eqRows d ≤ j) (hj2 : j < eqRows d + d.ph * d.nu) :
    Pfun d ssC wO wU wD i j =
      if i = j then wD ((i - eqRows d) % d.nu) ((i - eqRows d) / d.nu)
      else 0 := by
  simp only [Pfun]
  rw [if_neg (by omega), if_pos ⟨hi1, hi2, hj1, hj2⟩]

/-- Entries of `P` outside both diagonal sections vanish. -/
theorem Pfun_out (d : Dims) (ssC wO wU wD : ℕ → ℕ → ℚ) (i j : ℕ)
    (h1 : ¬ (i < eqRows d ∧ j < eqRows d))
    (h2 : ¬ (eqRows d ≤ i ∧ i < eqRows d + d.ph * d.nu ∧ eqRows d ≤ j ∧
        j < eqRows d + d.ph * d.nu)) :
    Pfun d ssC wO wU wD i j = 0 := by
  simp only [Pfun]
  rw [if_neg h1, if_neg h2]

/-- The objective matrix built by `buildTITerms` is symmetric. -/
theorem Pfun_symm (d : Dims) (ssC wO wU wD : ℕ → ℕ → ℚ) (i j : ℕ) :
    Pfun d ssC wO wU wD i j = Pfun d ssC wO wU wD j i := by
  by_cases h1 : i < eqRows d
  <;> by_cases h2 : j < eqRows d
  · rw [Pfun_state_raw d ssC wO wU wD i j h1 h2,
      Pfun_state_raw d ssC wO wU wD j i h2 h1]
    by_cases hk : i / (d.nx + d.nu) = j / (d.nx + d.nu)
    · rw [if_pos hk, if_pos hk.symm, hk]
      exact PStateEntry_symm d ssC wO wU _ _ _
    · rw [if_neg hk, if_neg (fun h => hk h.symm)]
  · rw [Pfun_cross_row d ssC wO wU wD i j h1 (by omega),
      Pfun_cross_col d ssC wO wU wD j i (by omega) h1]
  · rw [Pfun_cross_col d ssC wO wU wD i j (by omega) h2,
      Pfun_cross_row d ssC wO wU wD j i h2 (by omega)]
  · by_cases hin : i < eqRows d + d.ph * d.nu ∧ j < eqRows d + d.ph * d.nu
    · rw [Pfun_delta_raw d ssC wO wU wD i j (by omega) hin.1 (by omega) hin.2,
        Pfun_delta_raw d ssC wO wU wD j i (by omega) hin.2 (by omega) hin.1]
      by_cases he : i = j
      · rw [if_pos he, if_pos he.symm, he]
      · rw [if_neg he, if_neg (fun h => he h.symm)]
    · rw [Pfun_out d ssC wO wU wD i j (by tauto) (by tauto),
        Pfun_out d ssC wO wU wD j i (by tauto) (by tauto)]

/-- Quadratic form of one `ssCᵗ W ssC` block with a diagonal weight `W`
rewritten as a weighted sum of squares. -/
theorem quad_block (m nA : ℕ) (C : ℕ → ℕ → ℚ) (W : ℕ → ℚ) (zz : ℕ → ℚ) :
    (∑ r ∈ Finset.range m, ∑ c ∈ Finset.range m,
        zz r * (∑ a ∈ Finset.range nA, C a r * W a * C a c) * zz c) =
      ∑ a ∈ Finset.range nA, W a * (∑ r ∈ Finset.range m, C a r * zz r) ^ 2 := by
  have step1 : ∀ r c : ℕ,
      zz r * (∑ a ∈ Finset.range nA, C a r * W a * C a c) * zz c =
        ∑ a ∈ Finset.range nA, W a * ((C a r * zz r) * (C a c * zz c)) := by
    intro r c
    rw [Finset.mul_sum, Finset.sum_mul]
    exact Finset.sum_congr rfl (fun a _ => by ring)
  rw [Finset.sum_congr rfl
    (fun r _ => Finset.sum_congr rfl (fun c _ => step1 r c))]
  rw [Finset.sum_congr rfl (fun r _ => Finset.sum_comm), Finset.sum_comm]
  refine Finset.sum_congr rfl (fun a _ => ?_)
  rw [pow_two, Finset.sum_mul_sum, Finset.mul_sum]
  refine Finset.sum_congr rfl (fun r _ => ?_)
  rw [Finset.mul_sum]

/-- The state-section part of the quadratic form of `P` as a weighted
sum of squares: one term per horizon step and output channel. -/
theorem SA_eq (d : Dims) (ssC wO wU wD : ℕ → ℕ → ℚ) (z : ℕ → ℚ) :
    (∑ i ∈ Finset.range (eqRows d), ∑ j ∈ Finset.range (eqRows d),
        z i * Pfun d ssC wO wU wD i j * z j) =
      ∑ k ∈ Finset.range (d.ph + 1), ∑ a ∈ Finset.range (d.ny + d.nu),
        wExt d wO wU k a *
          (∑ r ∈ Finset.range (d.nx + d.nu),
            ssC a r * z (k * (d.nx + d.nu) + r)) ^ 2 := by
  have hE : eqRows d = (d.ph + 1) * (d.nx + d.nu) := rfl
  calc
    (∑ i ∈ Finset.range (eqRows d), ∑ j ∈ Finset.range (eqRows d),
        z i * Pfun d ssC wO wU wD i j * z j)
      = ∑ k ∈ Finset.range (d.ph + 1), ∑ r ∈ Finset.range (d.nx + d.nu),
          ∑ j ∈ Finset.range (eqRows d),
            z (k * (d.nx + d.nu) + r) *
              Pfun d ssC wO wU wD (k * (d.nx + d.nu) + r) j * z j := by
        rw [hE, sum_range_mul_eq]
    _ = ∑ k ∈ Finset.range (d.ph + 1), ∑ r ∈ Finset.range (d.nx + d.nu),
          ∑ k2 ∈ Finset.range (d.ph + 1), ∑ c ∈ Finset.range (d.nx + d.nu),
            z (k * (d.nx + d.nu) + r) *
              Pfun d ssC wO wU wD (k * (d.nx + d.nu) + r)
                (k2 * (d.nx + d.nu) + c) * z (k2 * (d.nx + d.nu) + c) := by
        refine Finset.sum_congr rfl (fun k _ => Finset.sum_congr rfl (fun r _ => ?_))
        rw [hE, sum_range_mul_eq]
    _ = ∑ k ∈ Finset.range (d.ph + 1), ∑ r ∈ Finset.range (d.nx + d.nu),
          ∑ c ∈ Finset.range (d.nx + d.nu),
            z (k * (d.nx + d.nu) + r) * PStateEntry d ssC wO wU k r c *
              z (k * (d.nx + d.nu) + c) := by
        refine Finset.sum_congr rfl (fun k hk => Finset.sum_congr rfl (fun r hr => ?_))
        rw [Finset.mem_range] at hk
        rw [Finset.mem_range] at hr
        calc
          (∑ k2 ∈ Finset.range (d.ph + 1), ∑ c ∈ Finset.range (d.nx + d.nu),
              z (k * (d.nx + d.nu) + r) *
                Pfun d ssC wO wU wD (k * (d.nx + d.nu) + r)
                  (k2 * (d.nx + d.nu) + c) * z (k2 * (d.nx + d.nu) + c))
            = ∑ k2 ∈ Finset.range (d.ph + 1), ∑ c ∈ Finset.range (d.nx + d.nu),
                (if k = k2 then
                  z (k * (d.nx + d.nu) + r) * PStateEntry d ssC wO wU k r c *
                    z (k2 * (d.nx + d.nu) + c)
                else 0) := by
              refine Finset.sum_congr rfl
                (fun k2 hk2 => Finset.sum_congr rfl (fun c hc => ?_))
              rw [Finset.mem_range] at hk2
              rw [Finset.mem_range] at hc
              rw [Pfun_state_entry d ssC wO wU wD k r k2 c hk hk2 hr hc]
              split_ifs <;> ring
          _ = ∑ k2 ∈ Finset.range (d.ph + 1),
                (if k = k2 then
                  ∑ c ∈ Finset.range (d.nx + d.nu),
                    z (k * (d.nx + d.nu) + r) * PStateEntry d ssC wO wU k r c *
                      z (k2 * (d.nx + d.nu) + c)
                else 0) :=
              Finset.sum_congr rfl (fun k2 _ => sum_ite_const _ _ _)
          _ = if k ∈ Finset.range (d.ph + 1) then
                ∑ c ∈ Finset.range (d.nx + d.nu),
                  z (k * (d.nx + d.nu) + r) * PStateEntry d ssC wO wU k r c *
                    z (k * (d.nx + d.nu) + c)
              else 0 := Finset.sum_ite_eq _ _ _
          _ = ∑ c ∈ Finset.range (d.nx + d.nu),
                z (k * (d.nx + d.nu) + r) * PStateEntry d ssC wO wU k r c *
                  z (k * (d.nx + d.nu) + c) := if_pos (Finset.mem_range.2 hk)
    _ = ∑ k ∈ Finset.range (d.ph + 1), ∑ a ∈ Finset.range (d.ny + d.nu),
          wExt d wO wU k a *
            (∑ r ∈ Finset.range (d.nx + d.nu),
              ssC a r * z (k * (d.nx + d.nu) + r)) ^ 2 := by
        refine Finset.sum_congr rfl (fun k _ => ?_)
        exact quad_block (d.nx + d.nu) (d.ny + d.nu) ssC (wExt d wO wU k)
          (fun r => z (k * (d.nx + d.nu) + r))

/-- C8: for every model and all per-step weight matrices with
non-negative entries, the objective matrix `P` produced by
`buildTITerms` is symmetric and positive semi-definite (its quadratic
form over the full decision-variable range is non-negative). -/
theorem C8_P_symmetric_psd (d : Dims) (b : Builder)
    (hO : ∀ a k, a < d.ny → k ≤ d.ph → 0 ≤ b.wOutput a k)
    (hU : ∀ a k, a < d.nu → k ≤ d.ph → 0 ≤ b.wU a k)
    (hD : ∀ a k, a < d.nu → k < d.ph → 0 ≤ b.wDeltaU a k) :
    (∀ i j, (buildTITerms d b).P i j = (buildTITerms d b).P j i) ∧
    (∀ z : ℕ → ℚ, 0 ≤ quadForm d (buildTITerms d b).P z) := by
  have hP : (buildTITerms d b).P = Pfun d b.ssC b.wOutput b.wU b.wDeltaU := rfl
  constructor
  · intro i j
    rw [hP]
    exact Pfun_symm d b.ssC b.wOutput b.wU b.wDeltaU i j
  · intro z
    rw [hP]
    unfold quadForm
    rw [Finset.sum_range_add]
    have hA : (∑ i ∈ Finset.range (eqRows d),
          ∑ j ∈ Finset.range (eqRows d + d.ph * d.nu),
            z i * Pfun d b.ssC b.wOutput b.wU b.wDeltaU i j * z j) =
        ∑ i ∈ Finset.range (eqRows d), ∑ j ∈ Finset.range (eqRows d),
          z i * Pfun d b.ssC b.wOutput b.wU b.wDeltaU i j * z j := by
      refine Finset.sum_congr rfl (fun i hi => ?_)
      rw [Finset.mem_range] at hi
      rw [Finset.sum_range_add]
      have h0 : (∑ t ∈ Finset.range (d.ph * d.nu),
          z i * Pfun d b.ssC b.wOutput b.wU b.wDeltaU i (eqRows d + t) *
            z (eqRows d + t)) = 0 :=
        Finset.sum_eq_zero (fun t _ => by
          rw [Pfun_cross_row d b.ssC b.wOutput b.wU b.wDeltaU i (eqRows d + t)
            hi (by omega)]
          ring)
      rw [h0, add_zero]
    have hB : (∑ t ∈ Finset.range (d.ph * d.nu),
          ∑ j ∈ Finset.range (eqRows d + d.ph * d.nu),
            z (eqRows d + t) *
              Pfun d b.ssC b.wOutput b.wU b.wDeltaU (eqRows d + t) j * z j) =
        ∑ t ∈ Finset.range (d.ph * d.nu), ∑ t2 ∈ Finset.range (d.ph * d.nu),
          z (eqRows d + t) *
            Pfun d b.ssC b.wOutput b.wU b.wDeltaU (eqRows d + t)
              (eqRows d + t2) * z (eqRows d + t2) := by
      refine Finset.sum_congr rfl (fun t _ => ?_)
      rw [Finset.sum_range_add]
      have h0 : (∑ j ∈ Finset.range (eqRows d),
          z (eqRows d + t) *
            Pfun d b.ssC b.wOutput b.wU b.wDeltaU (eqRows d + t) j * z j) = 0 :=
        Finset.sum_eq_zero (fun j hj => by
          rw [Finset.mem_range] at hj
          rw [Pfun_cross_col d b.ssC b.wOutput b.wU b.wDeltaU (eqRows d + t) j
            (by omega) hj]
          ring)
      rw [h0, zero_add]
    rw [hA, hB, SA_eq]
    apply add_nonneg
    · refine Finset.sum_nonneg (fun k hk => Finset.sum_nonneg (fun a ha => ?_))
      rw [Finset.mem_range] at hk
      rw [Finset.mem_range] at ha
      have hw : 0 ≤ wExt d b.wOutput b.wU k a := by
        unfold wExt
        by_cases hay : a < d.ny
        · rw [if_pos hay]
          exact hO a k hay (by omega)
        · rw [if_neg hay]
          exact hU (a - d.ny) k (by omega) (by omega)
      exact mul_nonneg hw (sq_nonneg _)
    · refine Finset.sum_nonneg (fun t ht => Finset.sum_nonneg (fun t2 ht2 => ?_))
      rw [Finset.mem_range] at ht
      rw [Finset.mem_range] at ht2
      rw [Pfun_delta_entry d b.ssC b.wOutput b.wU b.wDeltaU t t2 ht ht2]
      by_cases he : t = t2
      · rw [if_pos he, ← he]
        have hnu : 0 < d.nu := by
          by_contra hn
          push_neg at hn
          have hn0 : d.nu = 0 := by omega
          rw [hn0, mul_zero] at ht
          omega
        have hw : 0 ≤ b.wDeltaU (t % d.nu) (t / d.nu) :=
          hD (t % d.nu) (t / d.nu) (Nat.mod_lt _ hnu)
            ((Nat.div_lt_iff_lt_mul hnu).2 ht)
        rw [show z (eqRows d + t) * b.wDeltaU (t % d.nu) (t / d.nu) *
            z (eqRows d + t) =
            b.wDeltaU (t % d.nu) (t / d.nu) *
              (z (eqRows d + t) * z (eqRows d + t)) from by ring]
        exact mul_nonneg hw (mul_self_nonneg _)
      · rw [if_neg he, mul_zero, zero_mul]

/-- Witness for C8 at `cD` with all weights `1`: applies the theorem to
the concrete builder and dimensions, discharging the non-negativity
hypotheses. -/
theorem C8_witness :
    (∀ a k, a < cD.ny → k ≤ cD.ph → 0 ≤ (setObjective cD cB0 oneM oneM oneM).wOutput a k) ∧
    ((∀ i j, (buildTITerms cD (setObjective cD cB0 oneM oneM oneM)).P i j =
        (buildTITerms cD (setObjective cD cB0 oneM oneM oneM)).P j i) ∧
      (∀ z : ℕ → ℚ,
        0 ≤ quadForm cD (buildTITerms cD (setObjective cD cB0 oneM oneM oneM)).P z)) :=
  ⟨fun _ _ _ _ => by norm_num [setObjective, buildTITerms, oneM],
    C8_P_symmetric_psd cD (setObjective cD cB0 oneM oneM oneM)
      (fun _ _ _ _ => by norm_num [setObjective, buildTITerms, oneM])
      (fun _ _ _ _ => by norm_num [setObjective, buildTITerms, oneM])
      (fun _ _ _ _ => by norm_num [setObjective, buildTITerms, oneM])⟩

end Libmpc
